import Mathlib

/-!
Shallow embedding of the string_analyzer service core
(src/internals/handlers/handlers.go and src/main.go).

Strings are modelled by Lean `String` (sequences of Unicode scalar values),
which corresponds to the valid-UTF-8 Go strings the service stores.
Go byte-level operations are modelled through an explicit UTF-8 encoder.
-/

namespace StringAnalyzer

/-! ### UTF-8 encoding (Go strings are byte slices; `len` counts bytes) -/

/-- UTF-8 encoding of a single Unicode scalar value as a list of bytes
(each a `Nat` below 256).  This is the standard 1-to-4 byte encoding used
by Go source strings. -/
def utf8EncodeChar (c : Char) : List Nat :=
  let n := c.toNat
  if n < 0x80 then [n]
  else if n < 0x800 then [0xC0 + n / 0x40, 0x80 + n % 0x40]
  else if n < 0x10000 then [0xE0 + n / 0x1000, 0x80 + n / 0x40 % 0x40, 0x80 + n % 0x40]
  else [0xF0 + n / 0x40000, 0x80 + n / 0x1000 % 0x40, 0x80 + n / 0x40 % 0x40, 0x80 + n % 0x40]

/-- UTF-8 byte sequence of a list of characters. -/
def utf8Bytes : List Char → List Nat
  | [] => []
  | c :: cs => utf8EncodeChar c ++ utf8Bytes cs

/-- Go `len(s)` on a string: the number of bytes of its UTF-8 encoding. -/
def goLen (s : String) : Nat := (utf8Bytes s.data).length

/-! ### Go `unicode` package classification, restricted tables

The Go functions consult the full Unicode tables.  We embed them exactly on
the Basic Latin and Latin-1 Supplement blocks (code points below U+0100),
which is the fragment every concrete input in this development lives in;
outside that range `goIsLetter`/`goIsDigit` return `false` and `goToLowerChar`
is the identity.  Every universally quantified theorem below uses these
functions on both sides of the equation, so its truth does not depend on the
table fragment; concrete counterexamples only use code points below U+0100,
where the embedding agrees with Go. -/

/-- `unicode.IsLetter`, restricted to code points below U+0100
(exact on that range: ASCII letters and the Latin-1 letters
U+00AA, U+00B5, U+00BA, U+00C0–U+00D6, U+00D8–U+00F6, U+00F8–U+00FF). -/
def goIsLetter (c : Char) : Bool :=
  let n := c.toNat
  decide ((0x41 ≤ n ∧ n ≤ 0x5A) ∨ (0x61 ≤ n ∧ n ≤ 0x7A) ∨
    n = 0xAA ∨ n = 0xB5 ∨ n = 0xBA ∨
    (0xC0 ≤ n ∧ n ≤ 0xD6) ∨ (0xD8 ≤ n ∧ n ≤ 0xF6) ∨ (0xF8 ≤ n ∧ n ≤ 0xFF))

/-- `unicode.IsDigit` (category Nd), restricted to code points below U+0100,
where the only decimal digits are ASCII `0`–`9`. -/
def goIsDigit (c : Char) : Bool :=
  decide (0x30 ≤ c.toNat ∧ c.toNat ≤ 0x39)

/-- `unicode.ToLower`, restricted to code points below U+0100 (exact there:
`A`–`Z` and the Latin-1 capitals U+00C0–U+00DE except the multiplication
sign U+00D7 map 32 code points up; everything else in the range is fixed);
identity above U+0100. -/
def goToLowerChar (c : Char) : Char :=
  let n := c.toNat
  if (0x41 ≤ n ∧ n ≤ 0x5A) ∨ (0xC0 ≤ n ∧ n ≤ 0xDE ∧ n ≠ 0xD7) then
    Char.ofNat (n + 32)
  else c

/-- `strings.ToLower`: per-rune lowercasing of the whole string. -/
def goToLower (s : String) : String := String.mk (s.data.map goToLowerChar)

/-- `unicode.IsSpace`: Go's exact White_Space set. -/
def goIsSpace (c : Char) : Bool :=
  let n := c.toNat
  decide (n = 0x09 ∨ n = 0x0A ∨ n = 0x0B ∨ n = 0x0C ∨ n = 0x0D ∨ n = 0x20 ∨
    n = 0x85 ∨ n = 0xA0 ∨ n = 0x1680 ∨ (0x2000 ≤ n ∧ n ≤ 0x200A) ∨
    n = 0x2028 ∨ n = 0x2029 ∨ n = 0x202F ∨ n = 0x205F ∨ n = 0x3000)

/-- Worker for `goFields`: splits a character list into maximal runs of
non-whitespace characters, carrying the (reversed) current run. -/
def fieldsAux : List Char → List Char → List (List Char)
  | [], acc => if acc.isEmpty then [] else [acc.reverse]
  | c :: cs, acc =>
    if goIsSpace c then
      if acc.isEmpty then fieldsAux cs [] else acc.reverse :: fieldsAux cs []
    else fieldsAux cs (c :: acc)

/-- `strings.Fields`: the whitespace-delimited tokens of a string; leading,
trailing and repeated whitespace produce no empty tokens. -/
def goFields (s : String) : List String := (fieldsAux s.data []).map String.mk

/-- `countWords` from handlers.go: `len(strings.Fields(s))`. -/
def countWords (s : String) : Nat := (goFields s).length

/-! ### `strconv` -/

/-- ASCII decimal digit test. -/
def isAsciiDigit (c : Char) : Bool :=
  decide (0x30 ≤ c.toNat ∧ c.toNat ≤ 0x39)

/-- Numeric value of a list of ASCII digits, most significant first. -/
def digitsVal (cs : List Char) : Nat :=
  cs.foldl (fun a c => a * 10 + (c.toNat - 0x30)) 0

/-- `strconv.Atoi` on a 64-bit platform: an optional sign followed by one or
more ASCII digits; values outside the `int64` range are an error (`none`). -/
def goAtoi (s : String) : Option Int :=
  let signAndDigits : Int × List Char :=
    match s.data with
    | '+' :: rest => (1, rest)
    | '-' :: rest => (-1, rest)
    | cs => (1, cs)
  let ds := signAndDigits.2
  if ds.isEmpty then none
  else if ds.all isAsciiDigit then
    let v : Int := signAndDigits.1 * (digitsVal ds : Int)
    if v < -(2 ^ 63) ∨ 2 ^ 63 ≤ v then none else some v
  else none

/-- `strconv.ParseBool`: the exact set of accepted literals. -/
def goParseBool (s : String) : Option Bool :=
  if s = "1" ∨ s = "t" ∨ s = "T" ∨ s = "TRUE" ∨ s = "true" ∨ s = "True" then some true
  else if s = "0" ∨ s = "f" ∨ s = "F" ∨ s = "FALSE" ∨ s = "false" ∨ s = "False" then
    some false
  else none

/-- Go's 64-bit `int` arithmetic: two's-complement wraparound into
`[-2^63, 2^63)`.  Go defines signed integer overflow as wrapping, so
`maxint64 + 1 = minint64`; arithmetic on values parsed by `strconv.Atoi`
must be reduced through this map. -/
def wrapInt64 (n : Int) : Int := (n + 2 ^ 63) % 2 ^ 64 - 2 ^ 63

/-! ### Property computation (handlers.go `ComputeProperties`) -/

/-- One step of building the character frequency map: increment the count of
key `k`, appending a fresh entry with count 1 if `k` is absent.  Models a
write to the Go `map[string]int`. -/
def freqInsert : List (String × Nat) → String → List (String × Nat)
  | [], k => [(k, 1)]
  | (k', n) :: rest, k =>
    if k' = k then (k', n + 1) :: rest else (k', n) :: freqInsert rest k

/-- Lookup in the frequency map (Go map indexing with presence flag). -/
def lookupFreq : List (String × Nat) → String → Option Nat
  | [], _ => none
  | (k', n) :: rest, k => if k' = k then some n else lookupFreq rest k

/-- The `freqMap` loop of `ComputeProperties`: one increment per rune of the
value, keyed by the rune as a one-character string. -/
def charFreqMap (s : String) : List (String × Nat) :=
  s.data.foldl (fun m c => freqInsert m (String.mk [c])) []

/-- The cleaned character sequence of `isPalindrome`: lowercase the string,
then keep only letters and digits. -/
def cleanedChars (s : String) : List Char :=
  (goToLower s).data.filter (fun c => goIsLetter c || goIsDigit c)

/-- `isPalindrome` from handlers.go: builds the cleaned string, then compares
its UTF-8 **bytes** pairwise from both ends (`str[i] != str[len(str)-1-i]`). -/
def isPalindrome (s : String) : Bool :=
  let bs := utf8Bytes (cleanedChars s)
  (List.range (bs.length / 2)).all fun i =>
    bs.getD i 0 == bs.getD (bs.length - 1 - i) 0

/-- The derived properties of a stored string.  The SHA-256 hash field is not
modelled: no claim in this development mentions it, and its value feeds into
nothing else in the core logic. -/
structure Properties where
  length : Nat
  is_palindrome : Bool
  unique_characters : Nat
  word_count : Nat
  character_frequency_map : List (String × Nat)
deriving Repr, DecidableEq

/-- `ComputeProperties` from handlers.go (hash field omitted, see
`Properties`).  Note `Length` is Go `len(value)`: the UTF-8 byte count. -/
def ComputeProperties (value : String) : Properties :=
  { length := goLen value
    is_palindrome := isPalindrome value
    unique_characters := (charFreqMap value).length
    word_count := countWords value
    character_frequency_map := charFreqMap value }

/-! ### Filter sets (Go `map[string]any`)

A `FilterSet` is modelled as an association list from filter names to
dynamically typed values, mirroring the Go `map[string]any`.  Go map
iteration order is unspecified; the evaluator below folds in list order,
which is harmless because the conjunction it computes on well-typed filter
sets is order-independent. -/

/-- A dynamically typed filter value (the `any` in `map[string]any`):
the three types the code ever stores. -/
inductive FilterValue where
  | b (v : Bool)
  | i (v : Int)
  | s (v : String)
deriving Repr, DecidableEq

abbrev Filters := List (String × FilterValue)

/-- Go map write `filters[k] = v`: replace the entry for `k` if present,
otherwise append it. -/
def setFilter : Filters → String → FilterValue → Filters
  | [], k, v => [(k, v)]
  | (k', v') :: rest, k, v =>
    if k' = k then (k, v) :: rest else (k', v') :: setFilter rest k v

/-- Go map read `filters[k]` with presence flag. -/
def getFilter : Filters → String → Option FilterValue
  | [], _ => none
  | (k', v') :: rest, k => if k' = k then some v' else getFilter rest k

/-! ### The stored resource and the predicate evaluator (main.go) -/

/-- A stored string resource.  The id (equal to the hash) and the creation
timestamp play no role in any claim and are not modelled. -/
structure StringResource where
  value : String
  properties : Properties
deriving Repr, DecidableEq

/-- `matchesFilters` from main.go.  Each recognized key performs an
unchecked type assertion on the stored value; `none` models the Go panic
on a wrongly typed value.  Keys outside the five recognized names fall
through the `switch` and are ignored. -/
def matchesFilters (p : Properties) : Filters → Option Bool
  | [] => some true
  | (key, val) :: rest =>
    if key = "is_palindrome" then
      match val with
      | .b bv => if p.is_palindrome ≠ bv then some false else matchesFilters p rest
      | _ => none
    else if key = "min_length" then
      match val with
      | .i iv => if (p.length : Int) < iv then some false else matchesFilters p rest
      | _ => none
    else if key = "max_length" then
      match val with
      | .i iv => if (p.length : Int) > iv then some false else matchesFilters p rest
      | _ => none
    else if key = "word_count" then
      match val with
      | .i iv => if (p.word_count : Int) ≠ iv then some false else matchesFilters p rest
      | _ => none
    else if key = "contains_character" then
      match val with
      | .s ch =>
        if (lookupFreq p.character_frequency_map ch).isNone then some false
        else matchesFilters p rest
      | _ => none
    else matchesFilters p rest

/-- The filtering loop of `InMemoryStore.List`: keep the resources that
match; `none` models a panic raised by `matchesFilters`. -/
def filterResources (fs : Filters) : List StringResource → Option (List StringResource)
  | [] => some []
  | r :: rest =>
    match matchesFilters r.properties fs with
    | none => none
    | some true => (filterResources fs rest).map (r :: ·)
    | some false => filterResources fs rest

/-- `InMemoryStore.List` from main.go: filter the whole store, record the
pre-pagination count, then slice `[start:end]` with `start = offset`,
`end = min (offset+limit) totalCount`, returning early with an empty slice
when `start > totalCount`.  `none` models a panic: either from the
evaluator or from an out-of-bounds slice (negative `start` or
`start > end`, impossible for the validated `limit ≥ 1`, `offset ≥ 0`). -/
def storeList (store : List StringResource) (fs : Filters) (limit offset : Int) :
    Option (List StringResource × Nat) :=
  match filterResources fs store with
  | none => none
  | some allResults =>
    let totalCount : Int := allResults.length
    let start := offset
    let stop := offset + limit
    if start > totalCount then some ([], allResults.length)
    else
      let stop' := if stop > totalCount then totalCount else stop
      if 0 ≤ start ∧ start ≤ stop' then
        some ((allResults.drop start.toNat).take (stop' - start).toNat, allResults.length)
      else none

/-! ### `ListStrings` query-parameter parsing (handlers.go)

Each parameter is a query-string value, where `""` means absent (Go
`query.Get` returns `""` for a missing key and the handler only parses
non-empty values).  `none` models the 400 response. -/

/-- The `is_palindrome` branch of `ListStrings`. -/
def addPalFilter (f : Filters) (v : String) : Option Filters :=
  if v = "" then some f
  else
    match goParseBool v with
    | some bv => some (setFilter f "is_palindrome" (.b bv))
    | none => none

/-- The `min_length` / `max_length` / `word_count` branches of
`ListStrings`: `strconv.Atoi` plus a non-negativity check. -/
def addIntFilter (key : String) (f : Filters) (v : String) : Option Filters :=
  if v = "" then some f
  else
    match goAtoi v with
    | some n => if n < 0 then none else some (setFilter f key (.i n))
    | none => none

/-- The `contains_character` branch of `ListStrings`: the value must be
exactly one rune (`len([]rune(val)) != 1` is rejected). -/
def addCharFilter (f : Filters) (v : String) : Option Filters :=
  if v = "" then some f
  else if v.data.length = 1 then some (setFilter f "contains_character" (.s v))
  else none

/-- The filter-building portion of `ListStrings` (handlers.go): the five
optional parameters parsed in source order into a fresh filter map. -/
def parseListFilters (pal minL maxL wc cc : String) : Option Filters := do
  let f1 ← addPalFilter [] pal
  let f2 ← addIntFilter "min_length" f1 minL
  let f3 ← addIntFilter "max_length" f2 maxL
  let f4 ← addIntFilter "word_count" f3 wc
  addCharFilter f4 cc

/-! ### The natural-language parser (handlers.go `parseNaturalLanguageQuery`)

Go's `strings.Index`/`strings.Contains` work on byte offsets.  Every needle
the parser searches for ("palindrom", "containing", "contains", "letter ")
is pure ASCII, and an ASCII byte can never occur inside the multi-byte
encoding of another code point, so a byte-offset match always falls on a
code-point boundary and the suffix after the match is the same string
whether the cut is made at the byte or at the code-point level.  We
therefore model the search and the subsequent slicing on character lists. -/

/-- Is `pre` a prefix of `l`? -/
def isPrefixList : List Char → List Char → Bool
  | [], _ => true
  | _ :: _, [] => false
  | p :: ps, c :: cs => p == c && isPrefixList ps cs

/-- `strings.Index` modelled on characters: the first position at which
`needle` occurs in `hay` (see the section comment for why this matches the
byte-level Go semantics on ASCII needles). -/
def idxOfSub (needle : List Char) : List Char → Option Nat
  | [] => if needle.isEmpty then some 0 else none
  | c :: cs =>
    if isPrefixList needle (c :: cs) then some 0
    else (idxOfSub needle cs).map (· + 1)

/-- `strings.TrimSpace` modelled on characters: drop leading and trailing
`unicode.IsSpace` characters. -/
def trimSpace (cs : List Char) : List Char :=
  ((cs.dropWhile goIsSpace).reverse.dropWhile goIsSpace).reverse

/-- The word-count loop of the parser (`for i, word := range words`),
driven by the list of indices still to visit.  On the first index whose
token is "word"/"words" with a preceding token that `Atoi`-parses (or is
the literal "single"), it writes `word_count` and stops (the Go `break`);
otherwise it keeps scanning. -/
def wcLoop (ws : List String) (f : Filters) : List Nat → Filters
  | [] => f
  | i :: rest =>
    let word := ws.getD i ""
    if (word = "word" ∨ word = "words") ∧ 0 < i then
      match goAtoi (ws.getD (i - 1) "") with
      | some n => setFilter f "word_count" (.i n)
      | none =>
        if ws.getD (i - 1) "" = "single" then setFilter f "word_count" (.i 1)
        else wcLoop ws f rest
    else wcLoop ws f rest

/-- The length-comparison loop of the parser: at every index whose token is
"than", with a token on both sides and the next token `Atoi`-parsing to
`n`, a preceding "longer" writes `min_length = n+1` and a preceding
"shorter" writes `max_length = n-1`, both computed in Go's 64-bit `int`
arithmetic (so `n = maxint64` wraps to `minint64` and `n = minint64` wraps
to `maxint64`); no `break`, so later writes overwrite earlier ones. -/
def lenLoop (ws : List String) (f : Filters) : List Nat → Filters
  | [] => f
  | i :: rest =>
    let updated :=
      if ws.getD i "" = "than" ∧ 0 < i ∧ i < ws.length - 1 then
        match goAtoi (ws.getD (i + 1) "") with
        | some n =>
          if ws.getD (i - 1) "" = "longer" then
            setFilter f "min_length" (.i (wrapInt64 (n + 1)))
          else if ws.getD (i - 1) "" = "shorter" then
            setFilter f "max_length" (.i (wrapInt64 (n - 1)))
          else f
        | none => f
      else f
    lenLoop ws updated rest

/-- The keyword step shared by the containment heuristic: the suffix of
the lowered text after the first occurrence of "containing" (preferred,
`len = 10`) else "contains" (`len = 8`); `none` when neither occurs. -/
def findKeywordTail (lc : List Char) : Option (List Char) :=
  match idxOfSub ("containing".data) lc with
  | some i => some (lc.drop (i + 10))
  | none => (idxOfSub ("contains".data) lc).map (fun i => lc.drop (i + 8))

/-- The character-containment heuristic of the parser.  Finds "containing"
(preferred) else "contains" in the lowered text; inside the remainder after
the keyword it looks for "letter " and takes the first character of the
whitespace-trimmed tail, and only when "letter " is absent does it fall
back to the last token of the whole query if that token is a single rune.
`none` models the Go panic `words[len(words)-1]` on an empty token list
(proved unreachable below: the keyword match guarantees a token exists). -/
def containsHeur (lower : String) (words : List String) (f : Filters) : Option Filters :=
  match findKeywordTail lower.data with
  | none => some f
  | some remaining =>
    match idxOfSub ("letter ".data) remaining with
    | some j =>
      match trimSpace (remaining.drop (j + 7)) with
      | [] => some f
      | c :: _ => some (setFilter f "contains_character" (.s (String.mk [c])))
    | none =>
      match words.getLast? with
      | none => none
      | some lastWord =>
        if lastWord.data.length = 1 then
          some (setFilter f "contains_character" (.s lastWord))
        else some f

/-- The body of `parseNaturalLanguageQuery`: lowercase, tokenize, then the
four heuristics in source order (palindrome substring, word count, length
comparison, character containment). -/
def parseCore (query : String) : Option Filters :=
  let lower := goToLower query
  let words := goFields lower
  let f0 : Filters := []
  let f1 :=
    if (idxOfSub ("palindrom".data) lower.data).isSome then
      setFilter f0 "is_palindrome" (.b true)
    else f0
  let f2 := wcLoop words f1 (List.range words.length)
  let f3 := lenLoop words f2 (List.range words.length)
  containsHeur lower words f3

/-- `parseNaturalLanguageQuery` from handlers.go: the filters together with
the returned error value, which the source fixes to `nil` on its single
return path.  `none` models a panic (proved unreachable below). -/
def parseNaturalLanguageQuery (query : String) : Option (Filters × Option String) :=
  (parseCore query).map (fun f => (f, none))

/-! ### Specification-side definitions

The following definitions are written from the words of the specification
claims (not from the source); the theorems below compare the source
embeddings against them. -/

/-- Claim C3's per-filter semantics: `is_palindrome` and `word_count` are
exact equality, `min_length`/`max_length` are inclusive bounds on the
length property, `contains_character` is key membership in the frequency
map; entries with unrecognized keys impose no constraint. -/
def filterSat (p : Properties) (kv : String × FilterValue) : Bool :=
  if kv.1 = "is_palindrome" then
    match kv.2 with | .b bv => p.is_palindrome == bv | _ => true
  else if kv.1 = "min_length" then
    match kv.2 with | .i iv => decide (iv ≤ (p.length : Int)) | _ => true
  else if kv.1 = "max_length" then
    match kv.2 with | .i iv => decide ((p.length : Int) ≤ iv) | _ => true
  else if kv.1 = "word_count" then
    match kv.2 with | .i iv => decide ((p.word_count : Int) = iv) | _ => true
  else if kv.1 = "contains_character" then
    match kv.2 with
    | .s ch => (lookupFreq p.character_frequency_map ch).isSome
    | _ => true
  else true

/-- The typing discipline of the filter map: each recognized key carries
the type the evaluator asserts (bool / int / int / int / string). -/
def wellTypedEntry (kv : String × FilterValue) : Bool :=
  if kv.1 = "is_palindrome" then
    match kv.2 with | .b _ => true | _ => false
  else if kv.1 = "min_length" ∨ kv.1 = "max_length" ∨ kv.1 = "word_count" then
    match kv.2 with | .i _ => true | _ => false
  else if kv.1 = "contains_character" then
    match kv.2 with | .s _ => true | _ => false
  else true

/-- A filter set is well typed when every entry is. -/
def wellTyped (fs : Filters) : Bool := fs.all wellTypedEntry

/-- Claim C4's "full matching set": the stored resources satisfying every
filter, in store order, before pagination. -/
def matchingSet (store : List StringResource) (fs : Filters) : List StringResource :=
  store.filter (fun r => fs.all (filterSat r.properties))

/-- The word-count directive claim C6 reads at token index `i` (amended
form): token `i` is "word"/"words", token `i-1` exists and either
`Atoi`-parses to `n` (then `n`) or is the literal "single" (then 1). -/
def wcDirAt (ws : List String) (i : Nat) : Option Int :=
  if (ws.getD i "" = "word" ∨ ws.getD i "" = "words") ∧ 0 < i then
    match goAtoi (ws.getD (i - 1) "") with
    | some n => some n
    | none => if ws.getD (i - 1) "" = "single" then some 1 else none
  else none

/-- Amended claim C6: the earliest word-count directive in the token list
wins and scanning stops there. -/
def wordCountSpec (ws : List String) : Option Int :=
  (List.range ws.length).findSome? (wcDirAt ws)

/-- The word-count directive exactly as claim C6 states it: `<N>` must
parse as a **non-negative** integer. -/
def wcDirAtClaim (ws : List String) (i : Nat) : Option Int :=
  if (ws.getD i "" = "word" ∨ ws.getD i "" = "words") ∧ 0 < i then
    match goAtoi (ws.getD (i - 1) "") with
    | some n => if 0 ≤ n then some n else none
    | none => if ws.getD (i - 1) "" = "single" then some 1 else none
  else none

/-- Claim C6 verbatim: first non-negative `<N> word(s)` or `single word`
occurrence wins. -/
def wordCountSpecClaim (ws : List String) : Option Int :=
  (List.range ws.length).findSome? (wcDirAtClaim ws)

/-- The length directive claim C5 (amended) reads at token index `i`:
token `i` is "than" with a token on each side and an `Atoi`-parsing
successor `n`; `(true, n+1)` stands for a `min_length` write after
"longer", and `(false, n-1)` for a `max_length` write after "shorter",
the sums taken in Go's 64-bit `int` arithmetic (`wrapInt64`), which
matters only at the two extreme values `Atoi` can produce. -/
def lenDirAt (ws : List String) (i : Nat) : Option (Bool × Int) :=
  if ws.getD i "" = "than" ∧ 0 < i ∧ i < ws.length - 1 then
    match goAtoi (ws.getD (i + 1) "") with
    | some n =>
      if ws.getD (i - 1) "" = "longer" then some (true, wrapInt64 (n + 1))
      else if ws.getD (i - 1) "" = "shorter" then some (false, wrapInt64 (n - 1))
      else none
    | none => none
  else none

/-- Claim C5: the `min_length` value is the **last** "longer than N"
directive in scan order, if any. -/
def minLenSpec (ws : List String) : Option Int :=
  ((List.range ws.length).filterMap (fun i =>
    match lenDirAt ws i with
    | some (true, v) => some v
    | _ => none)).getLast?

/-- Claim C5: the `max_length` value is the **last** "shorter than N"
directive in scan order, if any. -/
def maxLenSpec (ws : List String) : Option Int :=
  ((List.range ws.length).filterMap (fun i =>
    match lenDirAt ws i with
    | some (false, v) => some v
    | _ => none)).getLast?

/-- Claim C7's keyword step: the suffix of the lowercased query after the
first occurrence of "containing" (preferred) else "contains". -/
def containsRemainder (q : String) : Option (List Char) :=
  findKeywordTail (goToLower q).data

/-- Claim C7's fallback sub-heuristic: the last whitespace-delimited token
of the (lowercased) query, if it is exactly one character long. -/
def lastTokenTarget (q : String) : Option String :=
  match (goFields (goToLower q)).getLast? with
  | some w => if w.data.length = 1 then some w else none
  | none => none

/-- Amended claim C7: after "letter " the tail is whitespace-trimmed and
its first character is the target (no target if only whitespace follows);
the last-token fallback applies only when "letter " is absent from the
remainder. -/
def containsCharSpec (q : String) : Option String :=
  match containsRemainder q with
  | none => none
  | some remaining =>
    match idxOfSub ("letter ".data) remaining with
    | some j =>
      match trimSpace (remaining.drop (j + 7)) with
      | [] => none
      | c :: _ => some (String.mk [c])
    | none => lastTokenTarget q

/-- Claim C7 verbatim: the target is the literal first character after
"letter " (no whitespace trimming), and the last-token fallback applies
whenever the first sub-heuristic yields no character. -/
def containsCharClaim (q : String) : Option String :=
  match containsRemainder q with
  | none => none
  | some remaining =>
    match idxOfSub ("letter ".data) remaining with
    | some j =>
      match remaining.drop (j + 7) with
      | [] => lastTokenTarget q
      | c :: _ => some (String.mk [c])
    | none => lastTokenTarget q

/-- Claim C1's length measure: the number of Unicode code points. -/
def codePointCount (s : String) : Nat := s.data.length

/-- The filter map accumulated by the first three parser heuristics
(palindrome substring, word-count loop, length-comparison loop) before the
containment heuristic runs; definitionally the intermediate state of
`parseCore`. -/
def preContains (q : String) : Filters :=
  lenLoop (goFields (goToLower q))
    (wcLoop (goFields (goToLower q))
      (if (idxOfSub ("palindrom".data) (goToLower q).data).isSome then
        setFilter [] "is_palindrome" (.b true)
      else [])
      (List.range (goFields (goToLower q)).length))
    (List.range (goFields (goToLower q)).length)

/-! ## Lemmas -/

theorem getFilter_setFilter (f : Filters) (k q : String) (v : FilterValue) :
    getFilter (setFilter f k v) q = if q = k then some v else getFilter f q := by
  induction f with
  | nil =>
    simp only [setFilter, getFilter]
    by_cases hq : q = k
    · subst hq; simp
    · have hkq : ¬ k = q := fun hh => hq hh.symm
      simp [hkq, hq]
  | cons kv rest ih =>
    obtain ⟨k', v'⟩ := kv
    by_cases h : k' = k
    · subst h
      simp only [setFilter, if_pos rfl, getFilter]
      by_cases hq : k' = q
      · subst hq; simp [getFilter]
      · have hq' : ¬ q = k' := fun hh => hq hh.symm
        simp [getFilter, hq, hq']
    · have hset : setFilter ((k', v') :: rest) k v = (k', v') :: setFilter rest k v := by
        simp [setFilter, h]
      rw [hset]
      by_cases hq : k' = q
      · subst hq
        simp [getFilter, h]
      · simp [getFilter, hq, ih]

theorem wellTyped_cons (kv : String × FilterValue) (rest : Filters) :
    wellTyped (kv :: rest) = (wellTypedEntry kv && wellTyped rest) := by
  simp [wellTyped]

theorem wellTyped_setFilter (f : Filters) (k : String) (v : FilterValue)
    (hf : wellTyped f = true) (hv : wellTypedEntry (k, v) = true) :
    wellTyped (setFilter f k v) = true := by
  induction f with
  | nil => simp [setFilter, wellTyped, hv]
  | cons kv rest ih =>
    obtain ⟨k', v'⟩ := kv
    rw [wellTyped_cons, Bool.and_eq_true] at hf
    by_cases h : k' = k
    · subst h
      simp [setFilter, wellTyped_cons, hv, hf.2]
    · simp [setFilter, h, wellTyped_cons, hf.1, ih hf.2]

/-- On a well-typed filter set the evaluator never panics and computes the
conjunction of the per-filter predicates. -/
theorem matchesFilters_eq_all (p : Properties) (fs : Filters) (h : wellTyped fs = true) :
    matchesFilters p fs = some (fs.all (filterSat p)) := by
  induction fs with
  | nil => simp [matchesFilters]
  | cons kv rest ih =>
    obtain ⟨k, v⟩ := kv
    rw [wellTyped_cons, Bool.and_eq_true] at h
    obtain ⟨hkv, hrest⟩ := h
    by_cases h1 : k = "is_palindrome"
    · subst h1
      cases v with
      | b bv =>
        by_cases hb : p.is_palindrome = bv <;>
          simp [matchesFilters, filterSat, hb, ih hrest]
      | i iv => simp [wellTypedEntry] at hkv
      | s sv => simp [wellTypedEntry] at hkv
    · by_cases h2 : k = "min_length"
      · subst h2
        cases v with
        | i iv =>
          by_cases hlt : (p.length : Int) < iv
          · have : ¬ iv ≤ (p.length : Int) := by omega
            simp [matchesFilters, filterSat, hlt, this]
          · have : iv ≤ (p.length : Int) := by omega
            simp [matchesFilters, filterSat, hlt, this, ih hrest]
        | b bv => simp [wellTypedEntry] at hkv
        | s sv => simp [wellTypedEntry] at hkv
      · by_cases h3 : k = "max_length"
        · subst h3
          cases v with
          | i iv =>
            by_cases hgt : (p.length : Int) > iv
            · have : ¬ (p.length : Int) ≤ iv := by omega
              simp [matchesFilters, filterSat, hgt, this]
            · have : (p.length : Int) ≤ iv := by omega
              simp [matchesFilters, filterSat, hgt, this, ih hrest]
          | b bv => simp [wellTypedEntry] at hkv
          | s sv => simp [wellTypedEntry] at hkv
        · by_cases h4 : k = "word_count"
          · subst h4
            cases v with
            | i iv =>
              by_cases he : (p.word_count : Int) = iv <;>
                simp [matchesFilters, filterSat, he, ih hrest]
            | b bv => simp [wellTypedEntry] at hkv
            | s sv => simp [wellTypedEntry] at hkv
          · by_cases h5 : k = "contains_character"
            · subst h5
              cases v with
              | s sv =>
                by_cases hm : (lookupFreq p.character_frequency_map sv).isNone
                · have : ¬ (lookupFreq p.character_frequency_map sv).isSome = true := by
                    simp [Option.isNone_iff_eq_none] at hm
                    simp [hm]
                  simp [matchesFilters, filterSat, h1, h2, h3, h4, hm, this]
                · have : (lookupFreq p.character_frequency_map sv).isSome = true := by
                    cases hx : lookupFreq p.character_frequency_map sv <;>
                      simp [hx] at hm ⊢
                  simp [matchesFilters, filterSat, h1, h2, h3, h4, hm, this, ih hrest]
              | b bv => simp [wellTypedEntry, h1, h2, h3, h4] at hkv
              | i iv => simp [wellTypedEntry, h1, h2, h3, h4] at hkv
            · simp [matchesFilters, filterSat, h1, h2, h3, h4, h5, ih hrest]

/-- On a well-typed filter set the store's filtering loop never panics and
returns exactly the matching set in store order. -/
theorem filterResources_eq (fs : Filters) (store : List StringResource)
    (h : wellTyped fs = true) :
    filterResources fs store = some (matchingSet store fs) := by
  induction store with
  | nil => simp [filterResources, matchingSet]
  | cons r rest ih =>
    cases hb : fs.all (filterSat r.properties) with
    | true =>
      simp [filterResources, matchesFilters_eq_all _ _ h, hb, ih, matchingSet,
        List.filter_cons]
    | false =>
      simp [filterResources, matchesFilters_eq_all _ _ h, hb, ih, matchingSet,
        List.filter_cons]

/-! ## Claim theorems -/

/-- C3: on a well-typed filter set, the in-memory predicate evaluator
returns true iff the resource properties satisfy every filter present
(logical AND; absent filters impose no constraint; unrecognized keys are
ignored), with `is_palindrome`/`word_count` exact equality,
`min_length`/`max_length` inclusive length bounds, and
`contains_character` exact key membership in the character frequency
map. -/
theorem claim_C3 (p : Properties) (fs : Filters) (h : wellTyped fs = true) :
    matchesFilters p fs = some (fs.all (filterSat p)) :=
  matchesFilters_eq_all p fs h

theorem claim_C3_witness :
    wellTyped [("is_palindrome", FilterValue.b true), ("contains_character", FilterValue.s "o")] = true ∧
    matchesFilters (ComputeProperties "hello world")
        [("is_palindrome", FilterValue.b true), ("contains_character", FilterValue.s "o")] =
      some ([("is_palindrome", FilterValue.b true), ("contains_character", FilterValue.s "o")].all
        (filterSat (ComputeProperties "hello world"))) :=
  ⟨by decide, claim_C3 (ComputeProperties "hello world") _ (by decide)⟩

/-- C4: for every store state, well-typed filter set, `limit ≥ 1` and
`offset ≥ 0`, the query executor returns (never errs) the size of the full
matching set as `total_count`, computed before pagination; when
`offset ≥ total_count` the result sequence is empty (with the true count);
otherwise it is the slice `[offset, min (offset+limit) total_count)` of
the matching set, hence holds at most `min limit (total_count - offset)`
items. -/
theorem claim_C4 (store : List StringResource) (fs : Filters) (limit offset : Int)
    (hw : wellTyped fs = true) (hl : 1 ≤ limit) (ho : 0 ≤ offset) :
    ∃ res : List StringResource,
      storeList store fs limit offset = some (res, (matchingSet store fs).length) ∧
      (((matchingSet store fs).length : Int) ≤ offset → res = []) ∧
      (offset < ((matchingSet store fs).length : Int) →
        res = ((matchingSet store fs).drop offset.toNat).take
            ((min (offset + limit) ((matchingSet store fs).length : Int) - offset).toNat) ∧
        (res.length : Int) ≤ min limit (((matchingSet store fs).length : Int) - offset)) := by
  have hfr := filterResources_eq fs store hw
  by_cases hcase : offset > ((matchingSet store fs).length : Int)
  · refine ⟨[], ?_, fun _ => rfl, fun hlt => absurd hlt (by omega)⟩
    simp [storeList, hfr, hcase]
  · have hle : offset ≤ ((matchingSet store fs).length : Int) := by omega
    have hss : offset ≤
        (if offset + limit > ((matchingSet store fs).length : Int)
         then ((matchingSet store fs).length : Int) else offset + limit) := by
      split <;> omega
    refine ⟨((matchingSet store fs).drop offset.toNat).take
        (((if offset + limit > ((matchingSet store fs).length : Int)
           then ((matchingSet store fs).length : Int) else offset + limit) - offset)).toNat,
      ?_, ?_, ?_⟩
    · simp only [storeList, hfr]
      rw [if_neg hcase, if_pos ⟨ho, hss⟩]
    · intro hoff
      have hoo : offset.toNat = (matchingSet store fs).length := by omega
      have hdrop : (matchingSet store fs).drop offset.toNat = [] := by
        rw [hoo]
        exact List.drop_length _
      simp [hdrop]
    · intro hlt
      have hmin : (if offset + limit > ((matchingSet store fs).length : Int)
          then ((matchingSet store fs).length : Int) else offset + limit) =
          min (offset + limit) ((matchingSet store fs).length : Int) := by
        split <;> omega
      constructor
      · rw [hmin]
      · rw [List.length_take, List.length_drop]
        push_cast
        omega

theorem claim_C4_witness :
    ∃ res : List StringResource,
      storeList [⟨"racecar", ComputeProperties "racecar"⟩,
          ⟨"test", ComputeProperties "test"⟩] [] 1 1 =
        some (res, (matchingSet [⟨"racecar", ComputeProperties "racecar"⟩,
          ⟨"test", ComputeProperties "test"⟩] []).length) ∧
      (((matchingSet [⟨"racecar", ComputeProperties "racecar"⟩,
          ⟨"test", ComputeProperties "test"⟩] []).length : Int) ≤ 1 → res = []) ∧
      ((1 : Int) < ((matchingSet [⟨"racecar", ComputeProperties "racecar"⟩,
          ⟨"test", ComputeProperties "test"⟩] []).length : Int) →
        res = ((matchingSet [⟨"racecar", ComputeProperties "racecar"⟩,
            ⟨"test", ComputeProperties "test"⟩] []).drop (1 : Int).toNat).take
            ((min ((1 : Int) + 1) ((matchingSet [⟨"racecar", ComputeProperties "racecar"⟩,
              ⟨"test", ComputeProperties "test"⟩] []).length : Int) - 1).toNat) ∧
        (res.length : Int) ≤ min 1 (((matchingSet [⟨"racecar", ComputeProperties "racecar"⟩,
          ⟨"test", ComputeProperties "test"⟩] []).length : Int) - 1)) :=
  claim_C4 _ [] 1 1 (by decide) (by decide) (by decide)

/-! ### C1: the length property -/

theorem utf8EncodeChar_length_pos (c : Char) : 1 ≤ (utf8EncodeChar c).length := by
  unfold utf8EncodeChar
  by_cases h1 : c.toNat < 0x80
  · simp [h1]
  · by_cases h2 : c.toNat < 0x800
    · simp [h1, h2]
    · by_cases h3 : c.toNat < 0x10000 <;> simp [h1, h2, h3]

theorem utf8EncodeChar_length_eq_one_iff (c : Char) :
    (utf8EncodeChar c).length = 1 ↔ c.toNat < 0x80 := by
  unfold utf8EncodeChar
  by_cases h1 : c.toNat < 0x80
  · simp [h1]
  · by_cases h2 : c.toNat < 0x800
    · simp [h1, h2]
    · by_cases h3 : c.toNat < 0x10000 <;> simp [h1, h2, h3]

theorem utf8Bytes_len_facts : ∀ cs : List Char,
    cs.length ≤ (utf8Bytes cs).length ∧
    ((utf8Bytes cs).length = cs.length ↔ ∀ c ∈ cs, c.toNat < 0x80)
  | [] => by simp [utf8Bytes]
  | c :: cs => by
    obtain ⟨ih1, ih2⟩ := utf8Bytes_len_facts cs
    have hpos := utf8EncodeChar_length_pos c
    have hone := utf8EncodeChar_length_eq_one_iff c
    simp only [utf8Bytes, List.length_append, List.length_cons, List.mem_cons]
    refine ⟨by omega, ?_, ?_⟩
    · intro h
      have h1 : (utf8EncodeChar c).length = 1 := by omega
      have h2 : (utf8Bytes cs).length = cs.length := by omega
      intro x hx
      rcases hx with rfl | hx
      · exact hone.mp h1
      · exact (ih2.mp h2) x hx
    · intro h
      have h1 : (utf8EncodeChar c).length = 1 := hone.mpr (h c (Or.inl rfl))
      have h2 : (utf8Bytes cs).length = cs.length := ih2.mpr (fun x hx => h x (Or.inr hx))
      omega

/-- C1 (amended): the length property computed by `ComputeProperties` is
the number of **bytes** of the UTF-8 encoding of the value, not the number
of code points; it is always at least the code point count and equals it
exactly when the value is pure ASCII. -/
theorem claim_C1 (s : String) :
    (ComputeProperties s).length = (utf8Bytes s.data).length ∧
    codePointCount s ≤ (ComputeProperties s).length ∧
    ((ComputeProperties s).length = codePointCount s ↔ ∀ c ∈ s.data, c.toNat < 0x80) := by
  obtain ⟨h1, h2⟩ := utf8Bytes_len_facts s.data
  exact ⟨rfl, h1, h2⟩

/-- C1 counterexample: on the one-code-point string "é" the computed
length property is 2 (its UTF-8 byte count), not the code point count 1,
refuting the claim that `length` counts code points. -/
theorem claim_C1_cex :
    (ComputeProperties "é").length = 2 ∧ codePointCount "é" = 1 := by
  exact ⟨by decide, by decide⟩

/-! ### C2: the palindrome property -/

theorem getD_of_lt (l : List Nat) (i : Nat) (h : i < l.length) : l.getD i 0 = l[i] := by
  rw [List.getD_eq_getElem?_getD, List.getElem?_eq_getElem h]
  rfl

/-- The two-pointer byte comparison loop of `isPalindrome` succeeds exactly
when the byte list equals its own reverse. -/
theorem palinCheck_iff (bs : List Nat) :
    ((List.range (bs.length / 2)).all fun i =>
      bs.getD i 0 == bs.getD (bs.length - 1 - i) 0) = true ↔ bs = bs.reverse := by
  rw [List.all_eq_true]
  constructor
  · intro hcheck
    have key : ∀ i < bs.length, bs.getD i 0 = bs.getD (bs.length - 1 - i) 0 := by
      intro i hi
      rcases Nat.lt_or_ge i (bs.length / 2) with h | h
      · exact beq_iff_eq.mp (hcheck i (List.mem_range.mpr h))
      · rcases eq_or_ne i (bs.length - 1 - i) with he | hne
        · rw [← he]
        · have hj : bs.length - 1 - i < bs.length / 2 := by omega
          have := beq_iff_eq.mp (hcheck (bs.length - 1 - i) (List.mem_range.mpr hj))
          have hjj : bs.length - 1 - (bs.length - 1 - i) = i := by omega
          rw [hjj] at this
          exact this.symm
    apply List.ext_getElem (by simp)
    intro i h1 h2
    have hi : i < bs.length := h1
    have hni : bs.length - 1 - i < bs.length := by omega
    rw [List.getElem_reverse]
    calc bs[i] = bs.getD i 0 := (getD_of_lt bs i hi).symm
      _ = bs.getD (bs.length - 1 - i) 0 := key i hi
      _ = bs[bs.length - 1 - i] := getD_of_lt bs _ hni
  · intro h i hi
    have hi2 : i < bs.length / 2 := List.mem_range.mp hi
    have hilen : i < bs.length := by omega
    have hni : bs.length - 1 - i < bs.length := by omega
    have hrev : bs.reverse.getD i 0 = bs.getD (bs.length - 1 - i) 0 := by
      rw [getD_of_lt bs.reverse i (by simpa using hilen), getD_of_lt bs _ hni,
        List.getElem_reverse]
    rw [beq_iff_eq, ← hrev]
    conv_lhs => rw [h]

/-- C2 (amended): `is_palindrome` is true iff the UTF-8 **byte** sequence
of the cleaned string (lowercased, letters and digits only) reads the same
forwards and backwards; the comparison is byte-by-byte, not code point by
code point, so a cleaned value containing non-ASCII characters can fail
even when its code-point sequence is symmetric. -/
theorem claim_C2 (s : String) :
    isPalindrome s = true ↔
      utf8Bytes (cleanedChars s) = (utf8Bytes (cleanedChars s)).reverse := by
  unfold isPalindrome
  exact palinCheck_iff _

/-- C2 counterexample: "é" cleans to the single code point é, which the
claim says is a palindrome (cleaned length 1, and the code-point sequence
equals its reverse), yet the byte-comparing implementation reports
`false`. -/
theorem claim_C2_cex :
    isPalindrome "é" = false ∧ (cleanedChars "é").length = 1 ∧
      cleanedChars "é" = (cleanedChars "é").reverse := by
  exact ⟨by decide, by decide, by decide⟩

/-! ### C9: the character frequency map -/

theorem lookupFreq_freqInsert (m : List (String × Nat)) (k q : String) :
    lookupFreq (freqInsert m k) q =
      if q = k then some ((lookupFreq m k).getD 0 + 1) else lookupFreq m q := by
  induction m with
  | nil =>
    simp only [freqInsert, lookupFreq]
    by_cases hq : q = k
    · subst hq; simp
    · have hkq : ¬ k = q := fun hh => hq hh.symm
      simp [hkq, hq, lookupFreq]
  | cons kv rest ih =>
    obtain ⟨k', n⟩ := kv
    by_cases h : k' = k
    · subst h
      simp only [freqInsert, if_pos rfl, lookupFreq]
      by_cases hq : k' = q
      · subst hq
        simp [lookupFreq]
      · have hq' : ¬ q = k' := fun hh => hq hh.symm
        simp [lookupFreq, hq, hq']
    · have hins : freqInsert ((k', n) :: rest) k = (k', n) :: freqInsert rest k := by
        simp [freqInsert, h]
      rw [hins]
      by_cases hq : k' = q
      · subst hq
        have hq' : ¬ k' = k := h
        simp [lookupFreq, hq']
      · simp [lookupFreq, hq, ih, h]

theorem sum_freqInsert (m : List (String × Nat)) (k : String) :
    ((freqInsert m k).map Prod.snd).sum = (m.map Prod.snd).sum + 1 := by
  induction m with
  | nil => simp [freqInsert]
  | cons kv rest ih =>
    obtain ⟨k', n⟩ := kv
    by_cases h : k' = k
    · subst h; simp [freqInsert]; omega
    · simp [freqInsert, h, ih]; omega

theorem keys_freqInsert (m : List (String × Nat)) (k : String) :
    (freqInsert m k).map Prod.fst =
      if (lookupFreq m k).isSome then m.map Prod.fst else m.map Prod.fst ++ [k] := by
  induction m with
  | nil => simp [freqInsert, lookupFreq]
  | cons kv rest ih =>
    obtain ⟨k', n⟩ := kv
    by_cases h : k' = k
    · subst h; simp [freqInsert, lookupFreq]
    · simp only [freqInsert, if_neg h, lookupFreq, List.map_cons, ih]
      by_cases hs : (lookupFreq rest k).isSome <;> simp [hs, h]

theorem lookupFreq_isSome_iff_mem (m : List (String × Nat)) (k : String) :
    (lookupFreq m k).isSome ↔ k ∈ m.map Prod.fst := by
  induction m with
  | nil => simp [lookupFreq]
  | cons kv rest ih =>
    obtain ⟨k', n⟩ := kv
    by_cases h : k' = k
    · subst h; simp [lookupFreq]
    · have h' : ¬ k = k' := fun hh => h hh.symm
      simp [lookupFreq, h, h', ih]

theorem nodup_keys_freqInsert (m : List (String × Nat)) (k : String)
    (hm : (m.map Prod.fst).Nodup) : ((freqInsert m k).map Prod.fst).Nodup := by
  rw [keys_freqInsert]
  by_cases hs : (lookupFreq m k).isSome
  · simpa [hs]
  · have hnot : k ∉ m.map Prod.fst := fun hmem =>
      hs ((lookupFreq_isSome_iff_mem m k).mpr hmem)
    simp [hs, List.nodup_append, hm, hnot]

theorem freqFold_lookup (cs : List Char) (m : List (String × Nat)) (q : String) :
    (lookupFreq (cs.foldl (fun a c => freqInsert a (String.mk [c])) m) q).isSome
      ↔ (lookupFreq m q).isSome ∨ q ∈ cs.map (fun c => String.mk [c]) := by
  induction cs generalizing m with
  | nil => simp
  | cons c cs ih =>
    simp only [List.foldl_cons, List.map_cons, List.mem_cons]
    rw [ih]
    by_cases hq : q = String.mk [c]
    · simp [lookupFreq_freqInsert, hq]
    · simp [lookupFreq_freqInsert, hq]

theorem freqFold_sum (cs : List Char) (m : List (String × Nat)) :
    ((cs.foldl (fun a c => freqInsert a (String.mk [c])) m).map Prod.snd).sum =
      (m.map Prod.snd).sum + cs.length := by
  induction cs generalizing m with
  | nil => simp
  | cons c cs ih =>
    simp only [List.foldl_cons, List.length_cons]
    rw [ih, sum_freqInsert]
    omega

theorem freqFold_nodup (cs : List Char) (m : List (String × Nat))
    (hm : (m.map Prod.fst).Nodup) :
    ((cs.foldl (fun a c => freqInsert a (String.mk [c])) m).map Prod.fst).Nodup := by
  induction cs generalizing m with
  | nil => simpa
  | cons c cs ih =>
    exact ih _ (nodup_keys_freqInsert m _ hm)

/-- C9: the character frequency map computed by `ComputeProperties` has as
keys exactly the distinct code points of the value (as one-character
strings, without duplicates), its values sum to the total number of code
points, and `unique_characters` equals the number of keys. -/
theorem claim_C9 (s : String) :
    (∀ q : String,
      (lookupFreq (ComputeProperties s).character_frequency_map q).isSome ↔
        q ∈ s.data.map (fun c => String.mk [c])) ∧
    (((ComputeProperties s).character_frequency_map.map Prod.snd).sum = codePointCount s) ∧
    ((ComputeProperties s).character_frequency_map.map Prod.fst).Nodup ∧
    (ComputeProperties s).unique_characters =
      (ComputeProperties s).character_frequency_map.length := by
  refine ⟨fun q => ?_, ?_, ?_, rfl⟩
  · have := freqFold_lookup s.data [] q
    simpa [lookupFreq] using this
  · have := freqFold_sum s.data []
    simpa [codePointCount] using this
  · exact freqFold_nodup s.data [] (by simp)

/-! ### Parser infrastructure: the containment heuristic never panics -/

theorem idxOfSub_mem_of_head (needle hay : List Char) (i : Nat) (c : Char)
    (hhead : needle.head? = some c) (h : idxOfSub needle hay = some i) : c ∈ hay := by
  induction hay generalizing i with
  | nil =>
    unfold idxOfSub at h
    cases needle with
    | nil => simp at hhead
    | cons n ns => simp at h
  | cons a hs ih =>
    unfold idxOfSub at h
    by_cases hp : isPrefixList needle (a :: hs) = true
    · cases needle with
      | nil => simp at hhead
      | cons n ns =>
        obtain rfl : n = c := by simpa using hhead
        simp only [isPrefixList, Bool.and_eq_true, beq_iff_eq] at hp
        exact hp.1 ▸ List.mem_cons_self _ _
    · rw [if_neg hp] at h
      cases hidx : idxOfSub needle hs with
      | none => rw [hidx] at h; simp at h
      | some j => exact List.mem_cons_of_mem _ (ih j hidx)

theorem fieldsAux_eq_nil (cs : List Char) (acc : List Char)
    (h : fieldsAux cs acc = []) : acc = [] ∧ ∀ c ∈ cs, goIsSpace c = true := by
  induction cs generalizing acc with
  | nil =>
    unfold fieldsAux at h
    by_cases ha : acc.isEmpty
    · exact ⟨List.isEmpty_iff.mp ha, by simp⟩
    · rw [if_neg ha] at h; simp at h
  | cons c cs ih =>
    unfold fieldsAux at h
    by_cases hsp : goIsSpace c = true
    · rw [if_pos hsp] at h
      by_cases ha : acc.isEmpty
      · rw [if_pos ha] at h
        obtain ⟨-, hall⟩ := ih [] h
        exact ⟨List.isEmpty_iff.mp ha, by
          intro x hx
          rcases List.mem_cons.mp hx with rfl | hx
          · exact hsp
          · exact hall x hx⟩
      · rw [if_neg ha] at h; simp at h
    · rw [if_neg hsp] at h
      obtain ⟨hacc, -⟩ := ih (c :: acc) h
      simp at hacc

theorem goFields_ne_nil (s : String) (c : Char) (hc : c ∈ s.data)
    (hs : goIsSpace c = false) : goFields s ≠ [] := by
  intro h
  unfold goFields at h
  have hfa : fieldsAux s.data [] = [] := by
    cases hx : fieldsAux s.data [] with
    | nil => rfl
    | cons a l => rw [hx] at h; simp at h
  obtain ⟨-, hall⟩ := fieldsAux_eq_nil s.data [] hfa
  rw [hall c hc] at hs
  exact Bool.noConfusion hs

theorem findKeywordTail_some_nonspace (lc : List Char) (r : List Char)
    (h : findKeywordTail lc = some r) : ∃ c ∈ lc, goIsSpace c = false := by
  unfold findKeywordTail at h
  cases h1 : idxOfSub ("containing".data) lc with
  | some i =>
    exact ⟨'c', idxOfSub_mem_of_head ("containing".data) lc i 'c' rfl h1, by decide⟩
  | none =>
    rw [h1] at h
    cases h2 : idxOfSub ("contains".data) lc with
    | some i =>
      exact ⟨'c', idxOfSub_mem_of_head ("contains".data) lc i 'c' rfl h2, by decide⟩
    | none => rw [h2] at h; simp at h

/-- The containment heuristic, run on the lowered query and its fields as
`parseCore` does, never panics, and its effect on the filter map is exactly
the (amended) specification target `containsCharSpec`. -/
theorem containsHeur_eq (q : String) (f : Filters) :
    containsHeur (goToLower q) (goFields (goToLower q)) f =
      some (match containsCharSpec q with
        | some ch => setFilter f "contains_character" (FilterValue.s ch)
        | none => f) := by
  unfold containsHeur containsCharSpec containsRemainder
  cases hk : findKeywordTail (goToLower q).data with
  | none => simp
  | some remaining =>
    have hne : goFields (goToLower q) ≠ [] := by
      obtain ⟨c, hc, hcs⟩ := findKeywordTail_some_nonspace _ _ hk
      exact goFields_ne_nil _ c hc hcs
    obtain ⟨w, hw⟩ : ∃ w, (goFields (goToLower q)).getLast? = some w := by
      cases hl : (goFields (goToLower q)).getLast? with
      | none => exact absurd (List.getLast?_eq_none_iff.mp hl) hne
      | some w => exact ⟨w, rfl⟩
    cases hj : idxOfSub ("letter ".data) remaining with
    | some j =>
      cases ht : trimSpace (remaining.drop (j + 7)) with
      | nil => simp [hj, ht]
      | cons c rest => simp [hj, ht]
    | none =>
      simp only [hj, lastTokenTarget, hw]
      by_cases hlen : w.data.length = 1
      · rw [if_pos hlen, if_pos hlen]
      · rw [if_neg hlen, if_neg hlen]

/-- The parser body always succeeds, with the containment heuristic
contributing exactly its specification target on top of the state left by
the first three heuristics. -/
theorem parseCore_eq (q : String) :
    parseCore q =
      some (match containsCharSpec q with
        | some ch => setFilter (preContains q) "contains_character" (FilterValue.s ch)
        | none => preContains q) := by
  unfold parseCore
  exact containsHeur_eq q (preContains q)

/-- C8: for every non-empty query the natural-language parser returns
successfully with a nil error (it can neither return an error nor panic),
and the empty filter set it produces for pattern-free queries makes the
evaluator accept every resource. -/
theorem claim_C8 (q : String) (h : q ≠ "") :
    (∃ fs, parseNaturalLanguageQuery q = some (fs, none)) ∧
    (∀ p : Properties, matchesFilters p [] = some true) := by
  constructor
  · refine ⟨(match containsCharSpec q with
      | some ch => setFilter (preContains q) "contains_character" (FilterValue.s ch)
      | none => preContains q), ?_⟩
    unfold parseNaturalLanguageQuery
    rw [parseCore_eq q]
    rfl
  · exact fun p => rfl

theorem claim_C8_witness :
    ((∃ fs, parseNaturalLanguageQuery "xyzzy" = some (fs, none)) ∧
      (∀ p : Properties, matchesFilters p [] = some true)) ∧
    parseNaturalLanguageQuery "xyzzy" = some ([], none) :=
  ⟨claim_C8 "xyzzy" (by decide), by decide⟩

/-! ### Parser loop lemmas -/

theorem getLast?_cons_eq_getD {α : Type} (a : α) (l : List α) :
    (a :: l).getLast? = some (l.getLast?.getD a) := by
  induction l generalizing a with
  | nil => rfl
  | cons b bs ih =>
    rw [List.getLast?_cons_cons, ih b]
    simp [ih b]

/-- The word-count loop computes the first word-count directive in the
scanned index list, leaving the map unchanged when there is none. -/
theorem wcLoop_word_count (ws : List String) (f : Filters) (is : List Nat) :
    getFilter (wcLoop ws f is) "word_count" =
      match is.findSome? (wcDirAt ws) with
      | some n => some (FilterValue.i n)
      | none => getFilter f "word_count" := by
  induction is generalizing f with
  | nil => simp [wcLoop]
  | cons i rest ih =>
    rw [wcLoop]
    by_cases hcond : (ws.getD i "" = "word" ∨ ws.getD i "" = "words") ∧ 0 < i
    · rw [if_pos hcond]
      cases ha : goAtoi (ws.getD (i - 1) "") with
      | some n =>
        have hdir : wcDirAt ws i = some n := by
          rw [wcDirAt, if_pos hcond]
          simp only [ha]
        simp only [ha, List.findSome?_cons, hdir]
        rw [getFilter_setFilter, if_pos rfl]
      | none =>
        by_cases hsingle : ws.getD (i - 1) "" = "single"
        · have hdir : wcDirAt ws i = some 1 := by
            rw [wcDirAt, if_pos hcond]
            simp only [ha]
            rw [if_pos hsingle]
          simp only [ha, List.findSome?_cons, hdir]
          rw [if_pos hsingle, getFilter_setFilter, if_pos rfl]
        · have hdir : wcDirAt ws i = none := by
            rw [wcDirAt, if_pos hcond]
            simp only [ha]
            rw [if_neg hsingle]
          simp only [ha, List.findSome?_cons, hdir]
          rw [if_neg hsingle, ih]
    · rw [if_neg hcond]
      have hdir : wcDirAt ws i = none := by rw [wcDirAt, if_neg hcond]
      simp only [List.findSome?_cons, hdir]
      exact ih f

/-- The word-count loop writes no key other than "word_count". -/
theorem wcLoop_other (ws : List String) (f : Filters) (is : List Nat) (k : String)
    (hk : k ≠ "word_count") : getFilter (wcLoop ws f is) k = getFilter f k := by
  induction is generalizing f with
  | nil => simp [wcLoop]
  | cons i rest ih =>
    rw [wcLoop]
    by_cases hcond : (ws.getD i "" = "word" ∨ ws.getD i "" = "words") ∧ 0 < i
    · rw [if_pos hcond]
      cases ha : goAtoi (ws.getD (i - 1) "") with
      | some n =>
        simp only [ha]
        rw [getFilter_setFilter, if_neg hk]
      | none =>
        simp only [ha]
        by_cases hsingle : ws.getD (i - 1) "" = "single"
        · rw [if_pos hsingle, getFilter_setFilter, if_neg hk]
        · rw [if_neg hsingle, ih]
    · rw [if_neg hcond]
      exact ih f

/-- The single-step effect of the length-comparison loop body. -/
theorem lenLoop_step (ws : List String) (f : Filters) (i : Nat) (rest : List Nat) :
    lenLoop ws f (i :: rest) =
      lenLoop ws
        (match lenDirAt ws i with
         | some (true, v) => setFilter f "min_length" (FilterValue.i v)
         | some (false, v) => setFilter f "max_length" (FilterValue.i v)
         | none => f) rest := by
  have harg : (if ws.getD i "" = "than" ∧ 0 < i ∧ i < ws.length - 1 then
      match goAtoi (ws.getD (i + 1) "") with
      | some n =>
        if ws.getD (i - 1) "" = "longer" then
          setFilter f "min_length" (FilterValue.i (wrapInt64 (n + 1)))
        else if ws.getD (i - 1) "" = "shorter" then
          setFilter f "max_length" (FilterValue.i (wrapInt64 (n - 1)))
        else f
      | none => f
    else f) =
      (match lenDirAt ws i with
       | some (true, v) => setFilter f "min_length" (FilterValue.i v)
       | some (false, v) => setFilter f "max_length" (FilterValue.i v)
       | none => f) := by
    by_cases hcond : ws.getD i "" = "than" ∧ 0 < i ∧ i < ws.length - 1
    · rw [if_pos hcond]
      cases ha : goAtoi (ws.getD (i + 1) "") with
      | some n =>
        simp only [ha]
        by_cases hlonger : ws.getD (i - 1) "" = "longer"
        · have hdir : lenDirAt ws i = some (true, wrapInt64 (n + 1)) := by
            rw [lenDirAt, if_pos hcond]
            simp only [ha]
            rw [if_pos hlonger]
          rw [if_pos hlonger, hdir]
        · by_cases hshorter : ws.getD (i - 1) "" = "shorter"
          · have hdir : lenDirAt ws i = some (false, wrapInt64 (n - 1)) := by
              rw [lenDirAt, if_pos hcond]
              simp only [ha]
              rw [if_neg hlonger, if_pos hshorter]
            rw [if_neg hlonger, if_pos hshorter, hdir]
          · have hdir : lenDirAt ws i = none := by
              rw [lenDirAt, if_pos hcond]
              simp only [ha]
              rw [if_neg hlonger, if_neg hshorter]
            rw [if_neg hlonger, if_neg hshorter, hdir]
      | none =>
        have hdir : lenDirAt ws i = none := by
          rw [lenDirAt, if_pos hcond]
          simp only [ha]
        simp only [ha, hdir]
    · have hdir : lenDirAt ws i = none := by rw [lenDirAt, if_neg hcond]
      rw [if_neg hcond, hdir]
  rw [lenLoop]
  rw [harg]

/-- The length loop's "min_length" result is the last "longer than"
directive in the scanned index list. -/
theorem lenLoop_min (ws : List String) (f : Filters) (is : List Nat) :
    getFilter (lenLoop ws f is) "min_length" =
      match (is.filterMap (fun i =>
        match lenDirAt ws i with
        | some (true, v) => some v
        | _ => none)).getLast? with
      | some v => some (FilterValue.i v)
      | none => getFilter f "min_length" := by
  induction is generalizing f with
  | nil => simp [lenLoop]
  | cons i rest ih =>
    rw [lenLoop_step, List.filterMap_cons]
    cases hdir : lenDirAt ws i with
    | none => simp [hdir, ih]
    | some d =>
      obtain ⟨b, v⟩ := d
      cases b with
      | true =>
        simp only [hdir]
        rw [ih, getLast?_cons_eq_getD]
        cases hlast : (rest.filterMap (fun i =>
          match lenDirAt ws i with
          | some (true, v) => some v
          | _ => none)).getLast? with
        | none => simp [hlast, getFilter_setFilter]
        | some v2 => simp [hlast]
      | false =>
        simp only [hdir]
        rw [ih]
        cases hlast : (rest.filterMap (fun i =>
          match lenDirAt ws i with
          | some (true, v) => some v
          | _ => none)).getLast? with
        | none => simp [hlast, getFilter_setFilter]
        | some v2 => simp [hlast]

/-- The length loop's "max_length" result is the last "shorter than"
directive in the scanned index list. -/
theorem lenLoop_max (ws : List String) (f : Filters) (is : List Nat) :
    getFilter (lenLoop ws f is) "max_length" =
      match (is.filterMap (fun i =>
        match lenDirAt ws i with
        | some (false, v) => some v
        | _ => none)).getLast? with
      | some v => some (FilterValue.i v)
      | none => getFilter f "max_length" := by
  induction is generalizing f with
  | nil => simp [lenLoop]
  | cons i rest ih =>
    rw [lenLoop_step, List.filterMap_cons]
    cases hdir : lenDirAt ws i with
    | none => simp [hdir, ih]
    | some d =>
      obtain ⟨b, v⟩ := d
      cases b with
      | false =>
        simp only [hdir]
        rw [ih, getLast?_cons_eq_getD]
        cases hlast : (rest.filterMap (fun i =>
          match lenDirAt ws i with
          | some (false, v) => some v
          | _ => none)).getLast? with
        | none => simp [hlast, getFilter_setFilter]
        | some v2 => simp [hlast]
      | true =>
        simp only [hdir]
        rw [ih]
        cases hlast : (rest.filterMap (fun i =>
          match lenDirAt ws i with
          | some (false, v) => some v
          | _ => none)).getLast? with
        | none => simp [hlast, getFilter_setFilter]
        | some v2 => simp [hlast]

/-- The length loop writes no key other than "min_length"/"max_length". -/
theorem lenLoop_other (ws : List String) (f : Filters) (is : List Nat) (k : String)
    (hmin : k ≠ "min_length") (hmax : k ≠ "max_length") :
    getFilter (lenLoop ws f is) k = getFilter f k := by
  induction is generalizing f with
  | nil => simp [lenLoop]
  | cons i rest ih =>
    rw [lenLoop_step]
    cases hdir : lenDirAt ws i with
    | none => exact ih f
    | some d =>
      obtain ⟨b, v⟩ := d
      cases b <;> simp [ih, getFilter_setFilter, hmin, hmax]

/-- The state the parser reaches before the containment heuristic holds no
"word_count", "min_length", "max_length" or "contains_character" entry
beyond those the two loops wrote, and no "contains_character" at all. -/
theorem preContains_other (q : String) (k : String)
    (hmin : k ≠ "min_length") (hmax : k ≠ "max_length") (hwc : k ≠ "word_count")
    (hpal : k ≠ "is_palindrome") :
    getFilter (preContains q) k = none := by
  unfold preContains
  rw [lenLoop_other _ _ _ _ hmin hmax, wcLoop_other _ _ _ _ hwc]
  by_cases hp : (idxOfSub ("palindrom".data) (goToLower q).data).isSome <;>
    simp [hp, getFilter_setFilter, hpal, getFilter]

/-! ### C5, C6, C7 -/

/-- C5 (amended): the parser's length-comparison heuristic yields exactly
the last "longer than N" directive as `min_length = N + 1` and the last
"shorter than N" directive as `max_length = N - 1`, both sums computed in
Go's 64-bit two's-complement `int` arithmetic (so `N = maxint64` wraps
`min_length` to `minint64`, and `N = minint64` wraps `max_length` to
`maxint64`); later writes overwrite earlier ones in scan order, and in
particular "shorter than 0" produces `max_length = -1` with no
validation. -/
theorem claim_C5 :
    (∀ q : String,
      (parseNaturalLanguageQuery q).map (fun r => getFilter r.1 "min_length") =
        some ((minLenSpec (goFields (goToLower q))).map FilterValue.i) ∧
      (parseNaturalLanguageQuery q).map (fun r => getFilter r.1 "max_length") =
        some ((maxLenSpec (goFields (goToLower q))).map FilterValue.i)) ∧
    (parseNaturalLanguageQuery "strings shorter than 0").map
        (fun r => getFilter r.1 "max_length") =
      some (some (FilterValue.i (-1))) := by
  constructor
  · intro q
    constructor
    · rw [parseNaturalLanguageQuery, parseCore_eq q, Option.map_map]
      simp only [Option.map_some', Function.comp]
      have hpre : getFilter (preContains q) "min_length" =
          (minLenSpec (goFields (goToLower q))).map FilterValue.i := by
        unfold preContains minLenSpec
        rw [lenLoop_min]
        cases hlast : ((List.range (goFields (goToLower q)).length).filterMap (fun i =>
          match lenDirAt (goFields (goToLower q)) i with
          | some (true, v) => some v
          | _ => none)).getLast? with
        | some v => rfl
        | none =>
          simp only [Option.map_none']
          rw [wcLoop_other _ _ _ _ (by decide)]
          by_cases hp : (idxOfSub ("palindrom".data) (goToLower q).data).isSome
          · rw [if_pos hp, getFilter_setFilter, if_neg (by decide)]
            rfl
          · rw [if_neg hp]
            rfl
      cases hc : containsCharSpec q with
      | some ch =>
        simp only [hc]
        rw [getFilter_setFilter, if_neg (by decide), hpre]
      | none =>
        simp only [hc]
        exact congrArg some hpre
    · rw [parseNaturalLanguageQuery, parseCore_eq q, Option.map_map]
      simp only [Option.map_some', Function.comp]
      have hpre : getFilter (preContains q) "max_length" =
          (maxLenSpec (goFields (goToLower q))).map FilterValue.i := by
        unfold preContains maxLenSpec
        rw [lenLoop_max]
        cases hlast : ((List.range (goFields (goToLower q)).length).filterMap (fun i =>
          match lenDirAt (goFields (goToLower q)) i with
          | some (false, v) => some v
          | _ => none)).getLast? with
        | some v => rfl
        | none =>
          simp only [Option.map_none']
          rw [wcLoop_other _ _ _ _ (by decide)]
          by_cases hp : (idxOfSub ("palindrom".data) (goToLower q).data).isSome
          · rw [if_pos hp, getFilter_setFilter, if_neg (by decide)]
            rfl
          · rw [if_neg hp]
            rfl
      cases hc : containsCharSpec q with
      | some ch =>
        simp only [hc]
        rw [getFilter_setFilter, if_neg (by decide), hpre]
      | none =>
        simp only [hc]
        exact congrArg some hpre
  · decide

/-- C5 counterexample: `strconv.Atoi` accepts `maxint64`, and Go's 64-bit
`int` addition wraps, so on "longer than 9223372036854775807" the program
sets `min_length = -9223372036854775808`, which is not `N + 1` as the
claim states it for every query. -/
theorem claim_C5_cex :
    goAtoi "9223372036854775807" = some (2 ^ 63 - 1) ∧
    (parseNaturalLanguageQuery "longer than 9223372036854775807").map
        (fun r => getFilter r.1 "min_length") =
      some (some (FilterValue.i (-(2 ^ 63)))) ∧
    (-(2 ^ 63) : Int) ≠ (2 ^ 63 - 1) + 1 := by
  exact ⟨by decide, by decide, by decide⟩

/-- C6 (amended): the parser's word-count heuristic sets `word_count = N`
for the **first** token sequence `<N> word(s)` whose `<N>` parses under
`strconv.Atoi` — which accepts a sign, so negative `N` are accepted too —
or `word_count = 1` for "single word(s)"; the earliest match wins and
scanning stops. -/
theorem claim_C6 (q : String) :
    (parseNaturalLanguageQuery q).map (fun r => getFilter r.1 "word_count") =
      some ((wordCountSpec (goFields (goToLower q))).map FilterValue.i) := by
  rw [parseNaturalLanguageQuery, parseCore_eq q, Option.map_map]
  simp only [Option.map_some', Function.comp]
  have hpre : getFilter (preContains q) "word_count" =
      (wordCountSpec (goFields (goToLower q))).map FilterValue.i := by
    unfold preContains wordCountSpec
    rw [lenLoop_other _ _ _ _ (by decide) (by decide), wcLoop_word_count]
    cases hfs : (List.range (goFields (goToLower q)).length).findSome?
        (wcDirAt (goFields (goToLower q))) with
    | some n => rfl
    | none =>
      simp only [Option.map_none']
      by_cases hp : (idxOfSub ("palindrom".data) (goToLower q).data).isSome
      · rw [if_pos hp, getFilter_setFilter, if_neg (by decide)]
        rfl
      · rw [if_neg hp]
        rfl
  cases hc : containsCharSpec q with
  | some ch =>
    simp only [hc]
    rw [getFilter_setFilter, if_neg (by decide), hpre]
  | none =>
    simp only [hc]
    exact congrArg some hpre

/-- C6 counterexample: on the query "-3 words" the parser sets
`word_count = -3` (Go `strconv.Atoi` accepts the sign), while the claim —
which requires `<N>` to be a non-negative integer — says no word-count
filter arises. -/
theorem claim_C6_cex :
    (parseNaturalLanguageQuery "-3 words").map (fun r => getFilter r.1 "word_count") =
      some (some (FilterValue.i (-3))) ∧
    wordCountSpecClaim (goFields (goToLower "-3 words")) = none := by
  exact ⟨by decide, by decide⟩

/-- C7 (amended): the containment heuristic finds "containing" (preferred)
else "contains"; if the remainder after the keyword contains "letter ", the
target is the first character of the whitespace-**trimmed** tail (no filter
if only whitespace follows), and only when "letter " is absent does the
last one-character token of the whole query serve as fallback. -/
theorem claim_C7 (q : String) :
    (parseNaturalLanguageQuery q).map (fun r => getFilter r.1 "contains_character") =
      some ((containsCharSpec q).map FilterValue.s) := by
  rw [parseNaturalLanguageQuery, parseCore_eq q, Option.map_map]
  simp only [Option.map_some', Function.comp]
  cases hc : containsCharSpec q with
  | some ch =>
    simp only [hc]
    rw [getFilter_setFilter, if_pos rfl]
    rfl
  | none =>
    simp only [hc, Option.map_none']
    exact congrArg some (preContains_other q "contains_character" (by decide) (by decide)
      (by decide) (by decide))

/-- C7 counterexample: on "x contains letter  z" (two spaces after
"letter") the code trims the whitespace and targets "z", while the claim's
"first character after that phrase" is the space character. -/
theorem claim_C7_cex :
    (parseNaturalLanguageQuery "x contains letter  z").map
        (fun r => getFilter r.1 "contains_character") =
      some (some (FilterValue.s "z")) ∧
    containsCharClaim "x contains letter  z" = some " " := by
  exact ⟨by decide, by decide⟩

/-! ### C10: typing discipline and evaluator totality -/

theorem wcLoop_wellTyped (ws : List String) (f : Filters) (is : List Nat)
    (hf : wellTyped f = true) : wellTyped (wcLoop ws f is) = true := by
  induction is generalizing f with
  | nil => simpa [wcLoop] using hf
  | cons i rest ih =>
    rw [wcLoop]
    by_cases hcond : (ws.getD i "" = "word" ∨ ws.getD i "" = "words") ∧ 0 < i
    · rw [if_pos hcond]
      cases ha : goAtoi (ws.getD (i - 1) "") with
      | some n =>
        simp only [ha]
        exact wellTyped_setFilter f _ _ hf rfl
      | none =>
        simp only [ha]
        by_cases hsingle : ws.getD (i - 1) "" = "single"
        · rw [if_pos hsingle]
          exact wellTyped_setFilter f _ _ hf rfl
        · rw [if_neg hsingle]
          exact ih f hf
    · rw [if_neg hcond]
      exact ih f hf

theorem lenLoop_wellTyped (ws : List String) (f : Filters) (is : List Nat)
    (hf : wellTyped f = true) : wellTyped (lenLoop ws f is) = true := by
  induction is generalizing f with
  | nil => simpa [lenLoop] using hf
  | cons i rest ih =>
    rw [lenLoop_step]
    cases hdir : lenDirAt ws i with
    | none => exact ih f hf
    | some d =>
      obtain ⟨b, v⟩ := d
      cases b
      · exact ih _ (wellTyped_setFilter f _ _ hf rfl)
      · exact ih _ (wellTyped_setFilter f _ _ hf rfl)

theorem preContains_wellTyped (q : String) : wellTyped (preContains q) = true := by
  unfold preContains
  refine lenLoop_wellTyped _ _ _ (wcLoop_wellTyped _ _ _ ?_)
  by_cases hp : (idxOfSub ("palindrom".data) (goToLower q).data).isSome
  · rw [if_pos hp]
    exact wellTyped_setFilter [] _ _ rfl rfl
  · rw [if_neg hp]
    rfl

theorem parseCore_wellTyped (q : String) (f : Filters) (h : parseCore q = some f) :
    wellTyped f = true := by
  rw [parseCore_eq q] at h
  cases hc : containsCharSpec q with
  | some ch =>
    rw [hc] at h
    simp only [Option.some.injEq] at h
    rw [← h]
    exact wellTyped_setFilter _ _ _ (preContains_wellTyped q) rfl
  | none =>
    rw [hc] at h
    simp only [Option.some.injEq] at h
    rw [← h]
    exact preContains_wellTyped q

theorem addPalFilter_wellTyped (f : Filters) (v : String) (fo : Filters)
    (h : addPalFilter f v = some fo) (hf : wellTyped f = true) : wellTyped fo = true := by
  unfold addPalFilter at h
  by_cases hv : v = ""
  · rw [if_pos hv] at h
    obtain rfl := Option.some.inj h
    exact hf
  · rw [if_neg hv] at h
    cases hb : goParseBool v with
    | some bv =>
      simp only [hb] at h
      obtain rfl := Option.some.inj h
      exact wellTyped_setFilter f _ _ hf rfl
    | none =>
      simp only [hb] at h
      exact absurd h (by simp)

theorem addIntFilter_wellTyped (key : String) (f : Filters) (v : String) (fo : Filters)
    (hent : ∀ n : Int, wellTypedEntry (key, FilterValue.i n) = true)
    (h : addIntFilter key f v = some fo) (hf : wellTyped f = true) :
    wellTyped fo = true := by
  unfold addIntFilter at h
  by_cases hv : v = ""
  · rw [if_pos hv] at h
    obtain rfl := Option.some.inj h
    exact hf
  · rw [if_neg hv] at h
    cases ha : goAtoi v with
    | some n =>
      simp only [ha] at h
      by_cases hn : n < 0
      · rw [if_pos hn] at h
        exact absurd h (by simp)
      · rw [if_neg hn] at h
        obtain rfl := Option.some.inj h
        exact wellTyped_setFilter f key _ hf (hent n)
    | none =>
      simp only [ha] at h
      exact absurd h (by simp)

theorem addCharFilter_wellTyped (f : Filters) (v : String) (fo : Filters)
    (h : addCharFilter f v = some fo) (hf : wellTyped f = true) : wellTyped fo = true := by
  unfold addCharFilter at h
  by_cases hv : v = ""
  · rw [if_pos hv] at h
    obtain rfl := Option.some.inj h
    exact hf
  · rw [if_neg hv] at h
    by_cases hlen : v.data.length = 1
    · rw [if_pos hlen] at h
      obtain rfl := Option.some.inj h
      exact wellTyped_setFilter f _ _ hf rfl
    · rw [if_neg hlen] at h
      exact absurd h (by simp)

theorem parseListFilters_wellTyped (pal minL maxL wc cc : String) (fs : Filters)
    (h : parseListFilters pal minL maxL wc cc = some fs) : wellTyped fs = true := by
  unfold parseListFilters at h
  cases h1 : addPalFilter [] pal with
  | none => rw [h1] at h; simp at h
  | some f1 =>
    rw [h1] at h
    simp only [Option.bind_eq_bind', Option.some_bind'] at h
    cases h2 : addIntFilter "min_length" f1 minL with
    | none => rw [h2] at h; simp at h
    | some f2 =>
      rw [h2] at h
      simp only [Option.bind_eq_bind', Option.some_bind'] at h
      cases h3 : addIntFilter "max_length" f2 maxL with
      | none => rw [h3] at h; simp at h
      | some f3 =>
        rw [h3] at h
        simp only [Option.bind_eq_bind', Option.some_bind'] at h
        cases h4 : addIntFilter "word_count" f3 wc with
        | none => rw [h4] at h; simp at h
        | some f4 =>
          rw [h4] at h
          simp only [Option.bind_eq_bind', Option.some_bind'] at h
          have hf1 : wellTyped f1 = true := addPalFilter_wellTyped [] pal f1 h1 rfl
          have hf2 : wellTyped f2 = true :=
            addIntFilter_wellTyped "min_length" f1 minL f2 (fun n => rfl) h2 hf1
          have hf3 : wellTyped f3 = true :=
            addIntFilter_wellTyped "max_length" f2 maxL f3 (fun n => rfl) h3 hf2
          have hf4 : wellTyped f4 = true :=
            addIntFilter_wellTyped "word_count" f3 wc f4 (fun n => rfl) h4 hf3
          exact addCharFilter_wellTyped f4 cc fs h hf4

/-- C10: the evaluator's unchecked type assertions panic on a wrongly
typed filter value (e.g. an int stored under "is_palindrome"), but every
filter set produced by the list-endpoint parameter parsing or by the
natural-language parser is well typed, so on those the evaluator is total
and the panic is unreachable through the public interface. -/
theorem claim_C10 (q pal minL maxL wc cc : String) (p : Properties)
    (fsQ : Filters) (e : Option String) (fsL : Filters)
    (hq : parseNaturalLanguageQuery q = some (fsQ, e))
    (hl : parseListFilters pal minL maxL wc cc = some fsL) :
    wellTyped fsQ = true ∧ wellTyped fsL = true ∧
    (matchesFilters p fsQ).isSome = true ∧ (matchesFilters p fsL).isSome = true ∧
    matchesFilters p [("is_palindrome", FilterValue.i 0)] = none := by
  have hQ : wellTyped fsQ = true := by
    unfold parseNaturalLanguageQuery at hq
    cases hpc : parseCore q with
    | none => rw [hpc] at hq; simp at hq
    | some f =>
      rw [hpc] at hq
      simp only [Option.map_some', Option.some.injEq, Prod.mk.injEq] at hq
      obtain ⟨h1, -⟩ := hq
      rw [← h1]
      exact parseCore_wellTyped q f hpc
  have hL : wellTyped fsL = true := parseListFilters_wellTyped pal minL maxL wc cc fsL hl
  refine ⟨hQ, hL, ?_, ?_, rfl⟩
  · rw [matchesFilters_eq_all p fsQ hQ]
    rfl
  · rw [matchesFilters_eq_all p fsL hL]
    rfl

theorem claim_C10_witness :
    wellTyped [] = true ∧
    wellTyped [("is_palindrome", FilterValue.b true), ("min_length", FilterValue.i 2),
      ("max_length", FilterValue.i 5), ("word_count", FilterValue.i 1),
      ("contains_character", FilterValue.s "z")] = true ∧
    (matchesFilters (ComputeProperties "madam") []).isSome = true ∧
    (matchesFilters (ComputeProperties "madam")
      [("is_palindrome", FilterValue.b true), ("min_length", FilterValue.i 2),
        ("max_length", FilterValue.i 5), ("word_count", FilterValue.i 1),
        ("contains_character", FilterValue.s "z")]).isSome = true ∧
    matchesFilters (ComputeProperties "madam")
      [("is_palindrome", FilterValue.i 0)] = none :=
  claim_C10 "a b" "true" "2" "5" "1" "z" (ComputeProperties "madam") [] none
    [("is_palindrome", FilterValue.b true), ("min_length", FilterValue.i 2),
      ("max_length", FilterValue.i 5), ("word_count", FilterValue.i 1),
      ("contains_character", FilterValue.s "z")] (by decide) (by decide)

end StringAnalyzer
